import Mathlib

/- Verification of the Ed discussion scraper (scraper.py) and the static-site
   builder (build_html.py).  Python strings are modelled as `List Char`;
   machine text processing (str.replace, regex search/sub, substring tests)
   is embedded as executable functions on `List Char`. -/

namespace EdSite

/-- Convert a string literal to the `List Char` representation used throughout. -/
def chars (s : String) : List Char := s.toList

/-- Python whitespace characters (`str.strip`, regex class backslash-s), ASCII range. -/
def isPySpace (c : Char) : Bool :=
  c = ' ' || c = '\t' || c = '\n' || c = '\r' || c = '\x0b' || c = '\x0c'

/-- Python `str.strip()`: drop leading and trailing whitespace. -/
def trimWS (s : List Char) : List Char :=
  ((s.dropWhile isPySpace).reverse.dropWhile isPySpace).reverse

/-- `isPre pat s` is true when `pat` is an initial segment of `s`. -/
def isPre : List Char → List Char → Bool
  | [], _ => true
  | _ :: _, [] => false
  | p :: ps, c :: cs => p = c && isPre ps cs

/-- Python substring containment `pat in s`. -/
def containsSub (pat : List Char) : List Char → Bool
  | [] => isPre pat []
  | c :: rest => isPre pat (c :: rest) || containsSub pat rest

/-- Number of start positions of `s` at which `pat` occurs. -/
def countOcc (pat : List Char) : List Char → Nat
  | [] => 0
  | c :: rest => (if isPre pat (c :: rest) = true then 1 else 0) + countOcc pat rest

/-- Python `s.replace(pat, repl)`: replace every non-overlapping occurrence of
`pat` in `s` by `repl`, scanning left to right. -/
def listSubst (pat repl : List Char) : List Char → List Char
  | [] => []
  | c :: rest =>
    if h : isPre pat (c :: rest) = true ∧ pat ≠ [] then
      repl ++ listSubst pat repl ((c :: rest).drop pat.length)
    else
      c :: listSubst pat repl rest
termination_by s => s.length
decreasing_by
  · have := List.length_pos.mpr h.2
    simp [List.length_drop]
    omega
  · simp

/- ------------------------------------------------------------------
   XML element trees, modelling the trees produced by ET.fromstring.
   `text` is the direct text before the first child, `tail` the text
   following the element's closing tag (empty list encodes Python None).
   ------------------------------------------------------------------ -/

mutual
inductive XTree where
  | elem (tag : List Char) (attrs : List (List Char × List Char)) (text : List Char)
         (children : XForest) (tail : List Char)
inductive XForest where
  | nil
  | cons (head : XTree) (rest : XForest)
end

def XTree.tag : XTree → List Char
  | .elem t _ _ _ _ => t

def XTree.attrs : XTree → List (List Char × List Char)
  | .elem _ a _ _ _ => a

def XTree.text : XTree → List Char
  | .elem _ _ x _ _ => x

def XTree.children : XTree → XForest
  | .elem _ _ _ c _ => c

def XTree.tail : XTree → List Char
  | .elem _ _ _ _ l => l

/-- `element.get(name)`: first attribute with the given name, if any. -/
def lookupA (key : List Char) : List (List Char × List Char) → Option (List Char)
  | [] => none
  | (k, v) :: rest => if k = key then some v else lookupA key rest

/-- Elements of a forest in document (pre-) order, as produced by `root.iter()`. -/
def preorderF : XForest → List XTree
  | .nil => []
  | .cons (.elem t a x c l) rest =>
    XTree.elem t a x c l :: (preorderF c ++ preorderF rest)

/-- `root.iter()`: the root element followed by all descendants in document order. -/
def preorder (t : XTree) : List XTree :=
  preorderF (.cons t .nil)

/-- Text of a forest as yielded inside `Element.itertext()`: for each element,
its own itertext followed by its tail. -/
def itertextF : XForest → List Char
  | .nil => []
  | .cons (.elem _ _ x c l) rest => (x ++ itertextF c ++ l) ++ itertextF rest

/-- `"".join(element.itertext())`: the element's text and all nested text
(including children's tails), excluding the element's own tail. -/
def itertext : XTree → List Char
  | .elem _ _ x c _ => x ++ itertextF c

/- ------------------------------------------------------------------
   Resources and the parser state (text parts, seen URL set, resources).
   ------------------------------------------------------------------ -/

structure Resource where
  rtype : List Char
  url : List Char
  name : List Char
deriving DecidableEq, Repr

structure PState where
  parts : List (List Char)
  seen : List (List Char)
  res : List Resource
deriving DecidableEq, Repr

/-- `add_resource(r_type, url, name)` from scraper.py: trim the URL, skip it if
already seen, replace the name by "Link" if it equals the trimmed URL. -/
def addResource (rtype url name : List Char) (st : PState) : PState :=
  let cleanUrl := trimWS url
  if cleanUrl ∈ st.seen then st
  else
    { st with
      seen := st.seen ++ [cleanUrl],
      res := st.res ++ [⟨rtype, cleanUrl, if name = cleanUrl then chars "Link" else name⟩] }

/-- The resource candidate contributed by one element during traversal
(lines 50-63 of scraper.py).  Python's `if url:` skips both a missing
attribute (None) and an empty one. -/
def elemCandidate (e : XTree) : Option (List Char × List Char × List Char) :=
  if e.tag = chars "link" then
    let nm := trimWS (itertext e)
    let nm := if nm = [] then chars "External Link" else nm
    match lookupA (chars "href") e.attrs with
    | some url => if url ≠ [] then some (chars "link", url, nm) else none
    | none => none
  else if e.tag = chars "file" ∨ e.tag = chars "secure-file" then
    match lookupA (chars "url") e.attrs with
    | some url =>
      if url ≠ [] then
        some (chars "file", url, (lookupA (chars "filename") e.attrs).getD (chars "File"))
      else none
    | none => none
  else if e.tag = chars "image" then
    match lookupA (chars "src") e.attrs with
    | some url =>
      if url ≠ [] then
        some (chars "image", url, (lookupA (chars "alt") e.attrs).getD (chars "Image"))
      else none
    | none => none
  else none

/-- One iteration of the `for element in root.iter()` loop: record the direct
text, process the element's resource candidate, record the tail text. -/
def stepElem (st : PState) (e : XTree) : PState :=
  let st1 := { st with parts := st.parts ++ if e.text ≠ [] then [e.text] else [] }
  let st2 :=
    match elemCandidate e with
    | some (t, u, n) => addResource t u n st1
    | none => st1
  { st2 with parts := st2.parts ++ if e.tail ≠ [] then [e.tail] else [] }

/- ------------------------------------------------------------------
   Raw URL scan: regex (https?://[^ "'<>]+ and no whitespace) via findall.
   ------------------------------------------------------------------ -/

def urlBodyChar (c : Char) : Bool :=
  !(isPySpace c || c = '"' || c = '\'' || c = '<' || c = '>')

/-- Try to match the URL regex at the start of `s`; on success return the
matched URL and the remaining input. -/
def matchUrlAt (s : List Char) : Option (List Char × List Char) :=
  if isPre (chars "https://") s then
    let rest := s.drop 8
    let body := rest.takeWhile urlBodyChar
    if body ≠ [] then some (chars "https://" ++ body, rest.drop body.length) else none
  else if isPre (chars "http://") s then
    let rest := s.drop 7
    let body := rest.takeWhile urlBodyChar
    if body ≠ [] then some (chars "http://" ++ body, rest.drop body.length) else none
  else none

/-- Fuelled scanner behind `re.findall`: leftmost match, continue after it. -/
def findURLsF : Nat → List Char → List (List Char)
  | 0, _ => []
  | _ + 1, [] => []
  | fuel + 1, c :: rest =>
    match matchUrlAt (c :: rest) with
    | some (url, after) => url :: findURLsF fuel after
    | none => findURLsF fuel rest

/-- `re.findall(r'(https?://[^ ...]+)', s)` (the character class excludes
whitespace, quotes and angle brackets). -/
def findURLs (s : List Char) : List (List Char) :=
  findURLsF s.length s

/-- Lines 77-81 of scraper.py: file-hosting URLs become `file` resources named
"Raw File Attachment", other unseen URLs become `link` resources named
"Raw Text Link". -/
def processRawLink (st : PState) (link : List Char) : PState :=
  if containsSub (chars "static.us.edusercontent.com") link then
    addResource (chars "file") link (chars "Raw File Attachment") st
  else if link ∈ st.seen then st
  else addResource (chars "link") link (chars "Raw Text Link") st

/-- The resources produced by the raw-URL scan alone, starting from a fresh
state (as happens on the parse-failure path). -/
def rawScanResources (t : List Char) : List Resource :=
  ((findURLs t).foldl processRawLink ⟨[], [], []⟩).res

/- ------------------------------------------------------------------
   Tag stripping fallback: re.sub(r'<[^>]+>', '', raw).
   ------------------------------------------------------------------ -/

/-- Fuelled scanner behind the tag-stripping `re.sub`: at a `<`, a match needs
at least one following character that is not `>`, ended by a `>`. -/
def stripTagsF : Nat → List Char → List Char
  | 0, s => s
  | _ + 1, [] => []
  | fuel + 1, c :: rest =>
    if c = '<' then
      let body := rest.takeWhile (fun d => d ≠ '>')
      if body ≠ [] ∧ body.length < rest.length then
        stripTagsF fuel (rest.drop (body.length + 1))
      else c :: stripTagsF fuel rest
    else c :: stripTagsF fuel rest

/-- `re.sub(r'<[^>]+>', '', s)`: remove every tag-like substring. -/
def stripTags (s : List Char) : List Char :=
  stripTagsF s.length s

/- ------------------------------------------------------------------
   parse_ed_content (scraper.py lines 17-83).  The call to ET.fromstring
   is an external library; it is taken as an explicit parameter
   `parseXML` returning `some tree` on success and `none` on ParseError.
   ------------------------------------------------------------------ -/

def sanitizeNbsp (s : List Char) : List Char :=
  listSubst (chars "&nbsp;") [' '] s

def wrapRoot (s : List Char) : List Char :=
  chars "<root>" ++ s ++ chars "</root>"

/-- `parse_ed_content(raw_xml)`: returns (clean text, resources). -/
def parseEdContent (parseXML : List Char → Option XTree) (raw : List Char) :
    List Char × List Resource :=
  if raw = [] then ([], [])
  else
    match parseXML (wrapRoot (sanitizeNbsp raw)) with
    | some root =>
      let st := (preorder root).foldl stepElem ⟨[], [], []⟩
      let fullText := trimWS st.parts.flatten
      let st2 := (findURLs fullText).foldl processRawLink st
      (fullText, st2.res)
    | none =>
      let fullText := trimWS (stripTags raw)
      let st2 := (findURLs fullText).foldl processRawLink ⟨[], [], []⟩
      (fullText, st2.res)

/- ------------------------------------------------------------------
   generate_tags (scraper.py lines 87-110).  The keywords dict is ordered
   (Python 3.7+ preserves insertion order); `list(set(tags))` only changes
   the (irrelevant) order and removes duplicates, of which there are none
   because the labels are distinct — the model keeps insertion order.
   Python str.lower is modelled on the ASCII range by Char.toLower.
   ------------------------------------------------------------------ -/

def keywords : List (List Char × List (List Char)) :=
  [ (chars "Visualization",
      [chars "visual", chars "diagram", chars "manim", chars "plot", chars "graph"]),
    (chars "Study Guide",
      [chars "guide", chars "roadmap", chars "notes", chars "summary", chars "cheat sheet"]),
    (chars "Quiz/Drill",
      [chars "quiz", chars "drill", chars "flashcard", chars "mcq", chars "question generator"]),
    (chars "Tool/App",
      [chars "tool", chars "app", chars "cli", chars "website", chars "interface"]),
    (chars "Prompt Eng",
      [chars "prompt", chars "system prompt", chars "persona"]),
    (chars "Coding",
      [chars "code", chars "implementation", chars "python", chars "jupyter", chars "colab"]),
    (chars "Math",
      [chars "derivation", chars "proof", chars "calculus", chars "linear algebra"]),
    (chars "Tutor",
      [chars "tutor", chars "coach", chars "socratic"]) ]

def pyLower (s : List Char) : List Char := s.map Char.toLower

/-- `generate_tags(title, content)`. -/
def generateTags (title content : List Char) : List (List Char) :=
  let blob := pyLower (title ++ [' '] ++ content)
  (keywords.filter (fun p => p.2.any (fun k => containsSub k blob))).map Prod.fst

/- ------------------------------------------------------------------
   Post Collector list phase (scraper.py lines 131-141).  The collaborator
   `ed.list_threads(COURSE_ID, limit, offset)` is modelled as a function of
   the offset returning either a batch or an error; the unbounded `while
   True` loop is modelled with fuel (one unit per iteration).
   ------------------------------------------------------------------ -/

def listPhase {E S : Type} (fetch : Nat → Except E (List S)) :
    Nat → Nat → List S → List S
  | 0, _, acc => acc
  | fuel + 1, off, acc =>
    match fetch off with
    | .error _ => acc
    | .ok [] => acc
    | .ok (x :: xs) => listPhase fetch fuel (off + (x :: xs).length) (acc ++ (x :: xs))

/- ------------------------------------------------------------------
   JSON values and Python json.dumps(..., ensure_ascii=False) with the
   default separators (", " and ": ").  Strings escape the quote, the
   backslash and control characters (short escapes for the usual five,
   a four-digit lowercase hex escape otherwise); all other characters,
   non-ASCII included, are emitted verbatim.
   ------------------------------------------------------------------ -/

mutual
inductive JVal where
  | null
  | bool (b : Bool)
  | num (n : Int)
  | str (s : List Char)
  | arr (xs : JArr)
  | obj (kvs : JObj)
inductive JArr where
  | nil
  | cons (v : JVal) (rest : JArr)
inductive JObj where
  | nil
  | cons (k : List Char) (v : JVal) (rest : JObj)
end

def digit (n : Nat) : Char :=
  match n % 10 with
  | 0 => '0' | 1 => '1' | 2 => '2' | 3 => '3' | 4 => '4'
  | 5 => '5' | 6 => '6' | 7 => '7' | 8 => '8' | _ => '9'

def hexDigit (n : Nat) : Char :=
  match n % 16 with
  | 0 => '0' | 1 => '1' | 2 => '2' | 3 => '3' | 4 => '4'
  | 5 => '5' | 6 => '6' | 7 => '7' | 8 => '8' | 9 => '9'
  | 10 => 'a' | 11 => 'b' | 12 => 'c' | 13 => 'd' | 14 => 'e' | _ => 'f'

def natCharsAux : Nat → Nat → List Char
  | 0, _ => []
  | fuel + 1, n => if n < 10 then [digit n] else natCharsAux fuel (n / 10) ++ [digit (n % 10)]

def natChars (n : Nat) : List Char := natCharsAux (n + 1) n

/-- Decimal representation of an integer, as Python prints an int. -/
def intChars : Int → List Char
  | .ofNat n => natChars n
  | .negSucc n => '-' :: natChars (n + 1)

def hex4 (n : Nat) : List Char :=
  [hexDigit (n / 4096), hexDigit (n / 256), hexDigit (n / 16), hexDigit n]

/-- JSON string escaping of one character (ensure_ascii=False). -/
def escChar (c : Char) : List Char :=
  if c = '"' then ['\\', '"']
  else if c = '\\' then ['\\', '\\']
  else if c = '\n' then ['\\', 'n']
  else if c = '\t' then ['\\', 't']
  else if c = '\r' then ['\\', 'r']
  else if c = '\x08' then ['\\', 'b']
  else if c = '\x0c' then ['\\', 'f']
  else if c.toNat < 32 then '\\' :: 'u' :: hex4 c.toNat
  else [c]

def escString (s : List Char) : List Char :=
  '"' :: (s.flatMap escChar ++ ['"'])

mutual
def dumps : JVal → List Char
  | .null => chars "null"
  | .bool true => chars "true"
  | .bool false => chars "false"
  | .num n => intChars n
  | .str s => escString s
  | .arr .nil => chars "[]"
  | .arr (.cons v rest) => '[' :: (dumps v ++ dumpsArrRest rest ++ [']'])
  | .obj .nil => ['\x7b', '\x7d']
  | .obj (.cons k v rest) =>
    '\x7b' :: (escString k ++ chars ": " ++ dumps v ++ dumpsObjRest rest ++ ['\x7d'])
def dumpsArrRest : JArr → List Char
  | .nil => []
  | .cons v rest => chars ", " ++ dumps v ++ dumpsArrRest rest
def dumpsObjRest : JObj → List Char
  | .nil => []
  | .cons k v rest =>
    chars ", " ++ escString k ++ chars ": " ++ dumps v ++ dumpsObjRest rest
end

/- ------------------------------------------------------------------
   Site Assembler (build_html.py lines 43-60).  The exact placeholder is
   replaced everywhere via str.replace; otherwise the whitespace-tolerant
   regex (which still requires the trailing // DATA_PLACEHOLDER comment)
   is tried with re.search / re.sub; otherwise the run is fatal (None).
   The re.sub replacement string is modelled as literal text.
   ------------------------------------------------------------------ -/

def PLACEHOLDER : List Char := chars "const POSTS_DATA = []; // DATA_PLACEHOLDER"

def replacementFor (postsJson : List Char) : List Char :=
  chars "const POSTS_DATA = " ++ postsJson ++ [';']

def eatLit (lit s : List Char) : Option (List Char) :=
  if isPre lit s then some (s.drop lit.length) else none

def eatWS (s : List Char) : List Char := s.dropWhile isPySpace

/-- Match the pattern
`const POSTS_DATA` ws* `=` ws* `[];` ws* `//` ws* `DATA_PLACEHOLDER`
at the start of `s`, returning the remaining input on success.  (Each
greedy ws* is followed by a non-whitespace literal, so the greedy
deterministic matcher agrees with the regex engine.) -/
def matchPHAt (s : List Char) : Option (List Char) :=
  (eatLit (chars "const POSTS_DATA") s).bind fun s1 =>
  (eatLit (chars "=") (eatWS s1)).bind fun s2 =>
  (eatLit (chars "[];") (eatWS s2)).bind fun s3 =>
  (eatLit (chars "//") (eatWS s3)).bind fun s4 =>
  eatLit (chars "DATA_PLACEHOLDER") (eatWS s4)

/-- `re.search` with the whitespace-tolerant placeholder pattern. -/
def regexSearchPH : List Char → Bool
  | [] => false
  | c :: rest => (matchPHAt (c :: rest)).isSome || regexSearchPH rest

/-- Fuelled scanner behind the placeholder `re.sub`: replace every
non-overlapping match, scanning left to right.  A successful match always
consumes at least one character, so fuel equal to the input length suffices. -/
def regexSubPHF (repl : List Char) : Nat → List Char → List Char
  | 0, s => s
  | _ + 1, [] => []
  | fuel + 1, c :: rest =>
    match matchPHAt (c :: rest) with
    | some after => repl ++ regexSubPHF repl fuel after
    | none => c :: regexSubPHF repl fuel rest

/-- `re.sub` with the whitespace-tolerant placeholder pattern, substituting
the already-expanded replacement template `repl` for every match.  (For this
zero-group pattern a successfully parsed template expands to the same text at
every match, so the expansion is done once, in `parseTemplate` below.) -/
def regexSubPH (repl s : List Char) : List Char :=
  regexSubPHF repl s.length s

def isOctDigitC (c : Char) : Bool := '0' ≤ c && c ≤ '7'

def octValC (c : Char) : Nat := c.toNat - 48

/-- CPython's table of string escapes recognized inside an `re` replacement
template (re ESCAPES): backslash-a/b/f/n/r/t/v and the doubled backslash. -/
def escTableChar (d : Char) : Option Char :=
  if d = 'a' then some (Char.ofNat 7)
  else if d = 'b' then some (Char.ofNat 8)
  else if d = 'f' then some (Char.ofNat 12)
  else if d = 'n' then some (Char.ofNat 10)
  else if d = 'r' then some (Char.ofNat 13)
  else if d = 't' then some (Char.ofNat 9)
  else if d = 'v' then some (Char.ofNat 11)
  else if d = '\\' then some '\\'
  else none

/-- Fuelled model of CPython's re replacement-template parsing
(re._parser.parse_template) for a pattern with no capturing groups, as used
by `re.sub` in build_html.py line 57; `none` is re.error.  Per CPython:
a trailing backslash is a "bad escape (end of pattern)" error; the table
escapes above expand to their control characters; `\0` with up to two octal
digits and three-octal-digit escapes up to 0o377 expand to the coded
character (larger values are errors); any other backslash-digit form is a
group reference, which is an "invalid group reference" error since this
pattern has no groups; a backslash before any other ASCII letter (such as
the `\uXXXX` that json.dumps emits for control characters) is a "bad
escape" error; a backslash before a non-letter non-digit (such as the `\"`
json.dumps emits for quotes) is kept verbatim, both characters.  `\g<...>`
is modelled as an error: for this pattern only the whole-match form `\g<0>`
would be accepted by Python, and no replacement this program builds —
a backslash-free literal around json.dumps output — contains a
backslash-g or a backslash-digit. -/
def parseTemplateF : Nat → List Char → Option (List Char)
  | 0, _ => none
  | _ + 1, [] => some []
  | fuel + 1, c :: rest =>
    if c = '\\' then
      match rest with
      | [] => none
      | d :: rest2 =>
        match escTableChar d with
        | some ch => (parseTemplateF fuel rest2).map (fun t => ch :: t)
        | none =>
          if d = '0' then
            let digs := (rest2.takeWhile isOctDigitC).take 2
            let v := digs.foldl (fun a e => a * 8 + octValC e) 0
            (parseTemplateF fuel (rest2.drop digs.length)).map
              (fun t => Char.ofNat v :: t)
          else if isOctDigitC d then
            match rest2 with
            | e1 :: e2 :: rest3 =>
              if isOctDigitC e1 && isOctDigitC e2 then
                let v := octValC d * 64 + octValC e1 * 8 + octValC e2
                if v ≤ 255 then
                  (parseTemplateF fuel rest3).map (fun t => Char.ofNat v :: t)
                else none
              else none
            | _ => none
          else if d.isDigit then none
          else if d = 'g' then none
          else if d.isAlpha then none
          else (parseTemplateF fuel rest2).map (fun t => '\\' :: d :: t)
    else (parseTemplateF fuel rest).map (fun t => c :: t)

/-- Expansion of an re replacement template (`none` is re.error).  Every step
consumes at least one character, so length-plus-one fuel always suffices. -/
def parseTemplate (s : List Char) : Option (List Char) :=
  parseTemplateF (s.length + 1) s

/-- build_html.py lines 43-60: substitution of the posts JSON into the
template.  The exact-placeholder branch is `str.replace` (literal).  The
fallback branch is `re.sub`, which first parses the replacement string as a
template, processing backslash escapes; a bad escape there raises re.error,
which nothing catches.  `none` covers both no-output outcomes: the
sys.exit(1) when no injection point is found, and the uncaught re.error —
in either case no output document is written. -/
def assembleSite (postsJson html : List Char) : Option (List Char) :=
  if containsSub PLACEHOLDER html then
    some (listSubst PLACEHOLDER (replacementFor postsJson) html)
  else if regexSearchPH html then
    match parseTemplate (replacementFor postsJson) with
    | some templ => some (regexSubPH templ html)
    | none => none
  else none

/- ------------------------------------------------------------------
   Definitions supporting the statements and proofs of the claims.
   ------------------------------------------------------------------ -/

/-- The two text parts one loop iteration appends for an element. -/
def partsOf (e : XTree) : List (List Char) :=
  (if e.text ≠ [] then [e.text] else []) ++ (if e.tail ≠ [] then [e.tail] else [])

/-- Invariant of the parser state: resource URLs are pairwise distinct and
each one has been recorded in the seen set. -/
def InvRS (st : PState) : Prop :=
  (st.res.map Resource.url).Nodup ∧ ∀ r ∈ st.res, r.url ∈ st.seen

/-- Modelled from the spec: document-order concatenation of every element's
direct text and tail in a forest — each element contributes its text, then
its children recursively, then its tail ("the children's text appears before
that element's tail"). -/
def specDocTextF : XForest → List Char
  | .nil => []
  | .cons (.elem _ _ x c l) rest => (x ++ specDocTextF c ++ l) ++ specDocTextF rest

/-- Modelled from the spec: document-order text of a whole tree. -/
def specDocText : XTree → List Char
  | .elem _ _ x c l => x ++ specDocTextF c ++ l

/-- Parse tree of `<root><x>P<y>Q</y></x>R</root>`: element x has text "P",
one child y (text "Q") and tail "R". -/
def treePRQ : XTree :=
  .elem (chars "root") [] []
    (.cons (.elem (chars "x") [] (chars "P")
      (.cons (.elem (chars "y") [] (chars "Q") .nil []) .nil) (chars "R")) .nil) []

/-- Markup whose ET parse is `treePRQ` (after root wrapping). -/
def rawPRQ : List Char := chars "<x>P<y>Q</y></x>R"

/-- A parser that, at the one input it is applied to in the C1 statements,
returns exactly what ET.fromstring returns on that input, namely `treePRQ`. -/
def parsePRQ : List Char → Option XTree := fun _ => some treePRQ

/-- A parser standing for ET.fromstring on inputs where it raises ParseError. -/
def parseFailW : List Char → Option XTree := fun _ => none

/-- The JSON text of the loaded document `[ {"id": 1} ]` re-serialized by
json.dumps(..., ensure_ascii=False). -/
def postsJsonOne : List Char :=
  dumps (.arr (.cons (.obj (.cons (chars "id") (.num 1) .nil)) .nil))

/-- A link element with an href attribute and no nested text. -/
def eLink : XTree :=
  .elem (chars "link") [(chars "href", chars "http://x")] [] .nil []

/-- The concrete collaborator of the C7 scenario: two successful non-empty
batches, then an error on the third fetch. -/
def fetchScenario : Nat → Except String (List Nat) := fun off =>
  if off = 0 then .ok [10] else if off = 1 then .ok [20, 30] else .error "boom"

/- ==================================================================
   Lemmas about substring matching and replacement.
   ================================================================== -/

theorem isPre_append_self (pat t : List Char) : isPre pat (pat ++ t) = true := by
  induction pat with
  | nil => simp [isPre]
  | cons p ps ih => simp [isPre, ih]

theorem containsSub_self_append {pat : List Char} (b : List Char) (hp : pat ≠ []) :
    containsSub pat (pat ++ b) = true := by
  obtain ⟨p, ps, rfl⟩ := List.exists_cons_of_ne_nil hp
  rw [List.cons_append]
  simp only [containsSub, Bool.or_eq_true]
  left
  rw [← List.cons_append]
  exact isPre_append_self _ _

theorem containsSub_append_right {pat b : List Char} (h : containsSub pat b = true)
    (a : List Char) : containsSub pat (a ++ b) = true := by
  induction a with
  | nil => simpa
  | cons c cs ih =>
    rw [List.cons_append]
    simp only [containsSub, Bool.or_eq_true]
    right
    exact ih

theorem containsSub_mid (pat a b : List Char) (hp : pat ≠ []) :
    containsSub pat (a ++ (pat ++ b)) = true :=
  containsSub_append_right (containsSub_self_append b hp) a

theorem countOcc_one_ge (pat a b : List Char) (hp : pat ≠ []) :
    1 ≤ countOcc pat (a ++ (pat ++ b)) := by
  induction a with
  | nil =>
    obtain ⟨p, ps, rfl⟩ := List.exists_cons_of_ne_nil hp
    rw [List.nil_append, List.cons_append]
    simp only [countOcc]
    rw [← List.cons_append, isPre_append_self]
    simp
  | cons c cs ih =>
    rw [List.cons_append]
    simp only [countOcc]
    omega

theorem countOcc_drop_le (pat a b : List Char) :
    countOcc pat b ≤ countOcc pat (a ++ b) := by
  induction a with
  | nil => simp
  | cons c cs ih =>
    rw [List.cons_append]
    simp only [countOcc]
    omega

theorem countOcc_zero_subst {pat : List Char} (repl : List Char) {s : List Char}
    (h : countOcc pat s = 0) : listSubst pat repl s = s := by
  induction s with
  | nil => simp [listSubst]
  | cons c rest ih =>
    simp only [countOcc] at h
    have hpre : ¬ isPre pat (c :: rest) = true := by
      intro hp
      simp [hp] at h
    have hrest : countOcc pat rest = 0 := by
      by_cases hp : isPre pat (c :: rest) = true
      · exact absurd hp hpre
      · simpa [hp] using h
    rw [listSubst, dif_neg (fun hand => hpre hand.1)]
    rw [ih hrest]

theorem listSubst_single (pat repl : List Char) (a b : List Char) (hp : pat ≠ [])
    (h : countOcc pat (a ++ (pat ++ b)) = 1) :
    listSubst pat repl (a ++ (pat ++ b)) = a ++ (repl ++ b) := by
  induction a with
  | nil =>
    obtain ⟨p, ps, hpat⟩ := List.exists_cons_of_ne_nil hp
    rw [List.nil_append] at h ⊢
    have hpre : isPre pat (pat ++ b) = true := isPre_append_self _ _
    have hcons : pat ++ b = p :: (ps ++ b) := by rw [hpat, List.cons_append]
    rw [hcons] at h ⊢
    rw [listSubst, dif_pos ⟨by rwa [← hcons], hp⟩]
    have hdrop : (p :: (ps ++ b)).drop pat.length = b := by
      rw [← hcons]
      exact List.drop_left _ _
    rw [hdrop]
    have hcount : countOcc pat (ps ++ b) = 0 := by
      rw [countOcc, ← hcons, hpre] at h
      simp at h
      omega
    have hb : countOcc pat b = 0 := by
      have := countOcc_drop_le pat ps b
      omega
    rw [countOcc_zero_subst repl hb, List.nil_append]
  | cons c cs ih =>
    rw [List.cons_append] at h ⊢
    by_cases hpre : isPre pat (c :: (cs ++ (pat ++ b))) = true
    · exfalso
      rw [countOcc, if_pos hpre] at h
      have := countOcc_one_ge pat cs b hp
      omega
    · rw [listSubst, dif_neg (fun hand => hpre hand.1)]
      rw [countOcc, if_neg hpre] at h
      simp only [Nat.zero_add] at h
      rw [ih h, List.cons_append]

theorem countOcc_two_ge (pat a b c : List Char) (hp : pat ≠ []) :
    2 ≤ countOcc pat (a ++ (pat ++ (b ++ (pat ++ c)))) := by
  induction a with
  | nil =>
    obtain ⟨p, ps, hpat⟩ := List.exists_cons_of_ne_nil hp
    rw [List.nil_append]
    have hcons : pat ++ (b ++ (pat ++ c)) = p :: (ps ++ (b ++ (pat ++ c))) := by
      rw [hpat, List.cons_append]
    rw [hcons, countOcc, ← hcons, isPre_append_self]
    have h1 : 1 ≤ countOcc pat (ps ++ (b ++ (pat ++ c))) := by
      have := countOcc_one_ge pat (ps ++ b) c hp
      rw [List.append_assoc] at this
      exact this
    simp only [if_true]
    omega
  | cons d ds ih =>
    rw [List.cons_append, countOcc]
    omega

theorem listSubst_double (pat repl : List Char) (a b c : List Char) (hp : pat ≠ [])
    (h : countOcc pat (a ++ (pat ++ (b ++ (pat ++ c)))) = 2) :
    listSubst pat repl (a ++ (pat ++ (b ++ (pat ++ c)))) =
      a ++ (repl ++ (b ++ (repl ++ c))) := by
  induction a with
  | nil =>
    obtain ⟨p, ps, hpat⟩ := List.exists_cons_of_ne_nil hp
    rw [List.nil_append] at h ⊢
    have hcons : pat ++ (b ++ (pat ++ c)) = p :: (ps ++ (b ++ (pat ++ c))) := by
      rw [hpat, List.cons_append]
    rw [hcons] at h ⊢
    rw [listSubst, dif_pos ⟨by rw [← hcons]; exact isPre_append_self _ _, hp⟩]
    have hdrop : (p :: (ps ++ (b ++ (pat ++ c)))).drop pat.length = b ++ (pat ++ c) := by
      rw [← hcons]
      exact List.drop_left _ _
    rw [hdrop]
    have hcount : countOcc pat (b ++ (pat ++ c)) = 1 := by
      rw [countOcc, ← hcons, isPre_append_self] at h
      simp only [if_true] at h
      have hle : countOcc pat (b ++ (pat ++ c)) ≤
          countOcc pat (ps ++ (b ++ (pat ++ c))) := countOcc_drop_le pat ps _
      have hge : 1 ≤ countOcc pat (b ++ (pat ++ c)) := countOcc_one_ge pat b c hp
      omega
    rw [listSubst_single pat repl b c hp hcount, List.nil_append]
  | cons d ds ih =>
    rw [List.cons_append] at h ⊢
    by_cases hpre : isPre pat (d :: (ds ++ (pat ++ (b ++ (pat ++ c))))) = true
    · exfalso
      rw [countOcc, if_pos hpre] at h
      have := countOcc_two_ge pat ds b c hp
      omega
    · rw [listSubst, dif_neg (fun hand => hpre hand.1)]
      rw [countOcc, if_neg hpre] at h
      simp only [Nat.zero_add] at h
      rw [ih h, List.cons_append]

/- ==================================================================
   Lemmas about the traversal state.
   ================================================================== -/

theorem addResource_parts (t u n : List Char) (st : PState) :
    (addResource t u n st).parts = st.parts := by
  obtain ⟨parts, seen, res⟩ := st
  simp only [addResource]
  split <;> rfl

theorem stepElem_parts (st : PState) (e : XTree) :
    (stepElem st e).parts = st.parts ++ partsOf e := by
  obtain ⟨parts, seen, res⟩ := st
  simp only [stepElem, partsOf]
  cases hc : elemCandidate e with
  | none => simp [List.append_assoc]
  | some c =>
    obtain ⟨t, u, n⟩ := c
    rw [addResource_parts]
    simp [List.append_assoc]

theorem foldl_stepElem_parts (es : List XTree) :
    ∀ st : PState, ((es.foldl stepElem st).parts) = st.parts ++ es.flatMap partsOf := by
  induction es with
  | nil => intro st; simp
  | cons e es ih =>
    intro st
    rw [List.foldl_cons, ih, stepElem_parts]
    simp [List.append_assoc]

theorem flatten_partsOf (e : XTree) : (partsOf e).flatten = e.text ++ e.tail := by
  by_cases h1 : e.text = [] <;> by_cases h2 : e.tail = [] <;>
    simp [partsOf, h1, h2]

theorem flatten_flatMap_partsOf (es : List XTree) :
    (es.flatMap partsOf).flatten = es.flatMap fun e => e.text ++ e.tail := by
  induction es with
  | nil => simp
  | cons e es ih => simp [List.flatten_append, flatten_partsOf, ih]

theorem addResource_inv {st : PState} (t u n : List Char) (h : InvRS st) :
    InvRS (addResource t u n st) := by
  obtain ⟨parts, seen, res⟩ := st
  obtain ⟨hnd, hseen⟩ := h
  simp only [addResource]
  split
  · exact ⟨hnd, hseen⟩
  rename_i hmem
  constructor
  · simp only [List.map_append, List.map_cons, List.map_nil]
    rw [List.nodup_append]
    refine ⟨hnd, List.nodup_singleton _, ?_⟩
    intro x hx hx1
    simp only [List.mem_singleton] at hx1
    subst hx1
    obtain ⟨r, hr, hru⟩ := List.mem_map.mp hx
    exact hmem (hru ▸ hseen r hr)
  · intro r hr
    rcases List.mem_append.mp hr with hold | hnew
    · exact List.mem_append_left _ (hseen r hold)
    · simp only [List.mem_singleton] at hnew
      subst hnew
      simp


theorem stepElem_inv {st : PState} (e : XTree) (h : InvRS st) :
    InvRS (stepElem st e) := by
  obtain ⟨parts, seen, res⟩ := st
  simp only [stepElem]
  cases hc : elemCandidate e with
  | none => exact h
  | some c =>
    obtain ⟨t, u, n⟩ := c
    exact addResource_inv t u n h

theorem foldl_stepElem_inv (es : List XTree) :
    ∀ st : PState, InvRS st → InvRS (es.foldl stepElem st) := by
  induction es with
  | nil => intro st h; exact h
  | cons e es ih =>
    intro st h
    rw [List.foldl_cons]
    exact ih _ (stepElem_inv e h)

theorem processRawLink_inv {st : PState} (l : List Char) (h : InvRS st) :
    InvRS (processRawLink st l) := by
  simp only [processRawLink]
  split
  · exact addResource_inv _ _ _ h
  split
  · exact h
  · exact addResource_inv _ _ _ h

theorem foldl_processRawLink_inv (links : List (List Char)) :
    ∀ st : PState, InvRS st → InvRS (links.foldl processRawLink st) := by
  induction links with
  | nil => intro st h; exact h
  | cons l ls ih =>
    intro st h
    rw [List.foldl_cons]
    exact ih _ (processRawLink_inv l h)

theorem addResource_res_mem {st : PState} {r : Resource} (t u n : List Char)
    (h : r ∈ (addResource t u n st).res) : r ∈ st.res ∨ r.rtype = t := by
  obtain ⟨parts, seen, res⟩ := st
  simp only [addResource] at h
  split at h
  · exact Or.inl h
  · rcases List.mem_append.mp h with hold | hnew
    · exact Or.inl hold
    · simp only [List.mem_singleton] at hnew
      subst hnew
      exact Or.inr rfl

theorem processRawLink_res_mem {st : PState} {r : Resource} (l : List Char)
    (h : r ∈ (processRawLink st l).res) :
    r ∈ st.res ∨ r.rtype = chars "file" ∨ r.rtype = chars "link" := by
  simp only [processRawLink] at h
  split at h
  · rcases addResource_res_mem _ _ _ h with h1 | h1
    · exact Or.inl h1
    · exact Or.inr (Or.inl h1)
  split at h
  · exact Or.inl h
  · rcases addResource_res_mem _ _ _ h with h1 | h1
    · exact Or.inl h1
    · exact Or.inr (Or.inr h1)

theorem foldl_processRawLink_res_mem (links : List (List Char)) :
    ∀ (st : PState) (r : Resource), r ∈ (links.foldl processRawLink st).res →
      r ∈ st.res ∨ r.rtype = chars "file" ∨ r.rtype = chars "link" := by
  induction links with
  | nil => intro st r h; exact Or.inl h
  | cons l ls ih =>
    intro st r h
    rw [List.foldl_cons] at h
    rcases ih _ r h with h1 | h1
    · exact processRawLink_res_mem l h1
    · exact Or.inr h1

/- ==================================================================
   Claims C1, C2, C3: the Content Parser.
   ================================================================== -/

/-- C1 (counterexample): the claim says an element's children's text appears
before that element's tail in the cleaned text.  For the markup
`<x>P<y>Q</y></x>R` — whose parse tree is `treePRQ` — the Content Parser
produces "PRQ" (the loop appends an element's tail right after its own text,
before its descendants are visited), while the document-order concatenation
the claim describes gives "PQR". -/
theorem c1_counterexample :
    parsePRQ (wrapRoot (sanitizeNbsp rawPRQ)) = some treePRQ ∧
    (parseEdContent parsePRQ rawPRQ).1 = chars "PRQ" ∧
    trimWS (specDocText treePRQ) = chars "PQR" ∧
    (parseEdContent parsePRQ rawPRQ).1 ≠ trimWS (specDocText treePRQ) :=
  ⟨rfl, by decide, by decide, by decide⟩

/-- C1 (amended): for every markup input that parses successfully as a tree,
the cleaned text equals the trimmed concatenation, over the pre-order element
sequence, of each element's direct text followed immediately by its tail text
— so an element's tail precedes its descendants' text in the output. -/
theorem c1_cleaned_text (p : List Char → Option XTree) (raw : List Char) (t : XTree)
    (hraw : raw ≠ []) (hp : p (wrapRoot (sanitizeNbsp raw)) = some t) :
    (parseEdContent p raw).1 =
      trimWS ((preorder t).flatMap fun e => e.text ++ e.tail) := by
  simp only [parseEdContent, if_neg hraw, hp]
  rw [foldl_stepElem_parts]
  simp [flatten_flatMap_partsOf]

theorem c1_cleaned_text_witness :
    (parseEdContent parsePRQ rawPRQ).1 =
      trimWS ((preorder treePRQ).flatMap fun e => e.text ++ e.tail) :=
  c1_cleaned_text parsePRQ rawPRQ treePRQ (by decide) rfl

/-- C2: for every markup input the resource list contains at most one entry
per distinct trimmed URL (the stored URLs are pairwise distinct), and the add
operation never rewrites an existing entry — it either leaves the list
unchanged (URL already seen, so the first occurrence wins) or appends one new
entry at the end. -/
theorem c2_url_dedup :
    (∀ (p : List Char → Option XTree) (raw : List Char),
        (((parseEdContent p raw).2).map Resource.url).Nodup) ∧
    ∀ (t u n : List Char) (st : PState),
      (addResource t u n st).res = st.res ∨
        ∃ r, (addResource t u n st).res = st.res ++ [r] := by
  have hinit : InvRS ⟨[], [], []⟩ :=
    ⟨List.nodup_nil, fun r hr => absurd hr (List.not_mem_nil r)⟩
  constructor
  · intro p raw
    by_cases hraw : raw = []
    · simp [parseEdContent, hraw]
    · cases hp : p (wrapRoot (sanitizeNbsp raw)) with
      | some root =>
        simp only [parseEdContent, if_neg hraw, hp]
        exact (foldl_processRawLink_inv _ _ (foldl_stepElem_inv _ _ hinit)).1
      | none =>
        simp only [parseEdContent, if_neg hraw, hp]
        exact (foldl_processRawLink_inv _ _ hinit).1
  · intro t u n st
    obtain ⟨parts, seen, res⟩ := st
    simp only [addResource]
    split
    · exact Or.inl rfl
    · exact Or.inr ⟨_, rfl⟩

/-- C3: when structured parsing fails, the Content Parser returns the raw
input with tag-like substrings stripped and whitespace trimmed, with exactly
the resources of the raw-URL scan over that text (so none extracted from the
markup: every resource is a raw-scan `file` or `link`). -/
theorem c3_fallback (p : List Char → Option XTree) (raw : List Char)
    (hraw : raw ≠ []) (hp : p (wrapRoot (sanitizeNbsp raw)) = none) :
    parseEdContent p raw =
      (trimWS (stripTags raw), rawScanResources (trimWS (stripTags raw))) ∧
    ∀ r ∈ (parseEdContent p raw).2,
      r.rtype = chars "file" ∨ r.rtype = chars "link" := by
  have heq : parseEdContent p raw =
      (trimWS (stripTags raw), rawScanResources (trimWS (stripTags raw))) := by
    simp [parseEdContent, hraw, hp, rawScanResources]
  refine ⟨heq, ?_⟩
  rw [heq]
  intro r hr
  simp only [rawScanResources] at hr
  rcases foldl_processRawLink_res_mem _ _ r hr with h1 | h1
  · exact absurd h1 (List.not_mem_nil r)
  · exact h1

theorem c3_fallback_witness :
    parseEdContent parseFailW (chars "<b>Hello <i>world") =
      (trimWS (stripTags (chars "<b>Hello <i>world")),
       rawScanResources (trimWS (stripTags (chars "<b>Hello <i>world")))) ∧
    ∀ r ∈ (parseEdContent parseFailW (chars "<b>Hello <i>world")).2,
      r.rtype = chars "file" ∨ r.rtype = chars "link" :=
  c3_fallback parseFailW (chars "<b>Hello <i>world") (by decide) rfl

/- ==================================================================
   Claims C4, C5, C10: the Site Assembler.
   ================================================================== -/

/-- C4: for a template containing the exact placeholder statement exactly
once and the input document `[ {"id": 1} ]`, the output document is the
template with the placeholder replaced by the literal
`const POSTS_DATA = [ {"id": 1} ];` (with Python's default ", "/": "
separators) and is byte-identical to the template elsewhere. -/
theorem c4_round_trip (a b : List Char)
    (h : countOcc PLACEHOLDER (a ++ (PLACEHOLDER ++ b)) = 1) :
    assembleSite postsJsonOne (a ++ (PLACEHOLDER ++ b)) =
      some (a ++ (chars "const POSTS_DATA = [\x7b\"id\": 1\x7d];" ++ b)) := by
  have hne : PLACEHOLDER ≠ [] := by decide
  have hc : containsSub PLACEHOLDER (a ++ (PLACEHOLDER ++ b)) = true :=
    containsSub_mid PLACEHOLDER a b hne
  simp only [assembleSite, hc, if_true]
  rw [listSubst_single PLACEHOLDER (replacementFor postsJsonOne) a b hne h]
  have hrepl : replacementFor postsJsonOne =
      chars "const POSTS_DATA = [\x7b\"id\": 1\x7d];" := by decide
  rw [hrepl]

theorem c4_round_trip_witness :
    assembleSite postsJsonOne
        (chars "<html><script>" ++ (PLACEHOLDER ++ chars "</script>")) =
      some (chars "<html><script>" ++
        (chars "const POSTS_DATA = [\x7b\"id\": 1\x7d];" ++ chars "</script>")) :=
  c4_round_trip (chars "<html><script>") (chars "</script>") (by decide)

/-- C5 (counterexample): the claim says a whitespace-tolerant variant of the
placeholder statement lacking the trailing comment is still located.  For the
template `const POSTS_DATA = [];` — the claim's own example — the exact
placeholder is absent and the fallback pattern (which requires the trailing
`// DATA_PLACEHOLDER` comment) does not match either, so the run is fatal
and no output document is produced. -/
theorem c5_counterexample :
    containsSub PLACEHOLDER (chars "const POSTS_DATA = [];") = false ∧
    assembleSite (chars "[]") (chars "const POSTS_DATA = [];") = none :=
  ⟨by decide, by decide⟩

theorem parseTemplateF_no_bs :
    ∀ (fuel : Nat) (s : List Char), s.length < fuel → '\\' ∉ s →
      parseTemplateF fuel s = some s := by
  intro fuel
  induction fuel with
  | zero =>
    intro s hlen _
    exact absurd hlen (by omega)
  | succ fuel ih =>
    intro s hlen hmem
    cases s with
    | nil => rfl
    | cons c rest =>
      have hc : ¬ c = '\\' := fun h => hmem (h ▸ List.mem_cons_self c rest)
      have hrest : '\\' ∉ rest := fun h => hmem (List.mem_cons_of_mem c h)
      simp only [parseTemplateF, if_neg hc]
      rw [ih rest (by simp only [List.length_cons] at hlen; omega) hrest]
      rfl

/-- A backslash-free replacement template passes through re.sub's escape
processing unchanged. -/
theorem parseTemplate_no_bs (s : List Char) (h : '\\' ∉ s) :
    parseTemplate s = some s :=
  parseTemplateF_no_bs (s.length + 1) s (Nat.lt_succ_self _) h

/-- C5 (amended): for every template in which the exact placeholder literal is
absent but the whitespace-tolerant variant of the full placeholder statement
including the trailing comment matches, the Site Assembler still locates the
injection point; it produces an output document whenever the posts JSON
contains no backslash (the replacement then passes through re.sub's
escape processing unchanged), and when the replacement template fails
escape processing (e.g. json.dumps emitted a backslash-u escape, which is a
bad escape in a replacement), re.sub raises and no output is produced. -/
theorem c5_tolerant_variant (json t : List Char)
    (h1 : containsSub PLACEHOLDER t = false) (h2 : regexSearchPH t = true) :
    ('\\' ∉ json → ∃ out, assembleSite json t = some out) ∧
    (parseTemplate (replacementFor json) = none → assembleSite json t = none) := by
  constructor
  · intro hb
    have hrep : '\\' ∉ replacementFor json := by
      simp only [replacementFor, List.mem_append, List.mem_singleton]
      rintro ((h | h) | h)
      · exact absurd h (by decide)
      · exact hb h
      · exact absurd h (by decide)
    simp only [assembleSite, h1, h2, if_true, Bool.false_eq_true, if_false,
      parseTemplate_no_bs (replacementFor json) hrep]
    exact ⟨_, rfl⟩
  · intro hnone
    simp only [assembleSite, h1, h2, if_true, Bool.false_eq_true, if_false, hnone]

theorem c5_tolerant_variant_witness :
    (∃ out, assembleSite (chars "[]")
      (chars "<script>const POSTS_DATA=[];//DATA_PLACEHOLDER</script>") = some out) ∧
    assembleSite (chars "[\"\\u00e9\"]")
      (chars "<script>const POSTS_DATA=[];//DATA_PLACEHOLDER</script>") = none :=
  ⟨(c5_tolerant_variant (chars "[]")
      (chars "<script>const POSTS_DATA=[];//DATA_PLACEHOLDER</script>")
      (by decide) (by decide)).1 (by decide),
   (c5_tolerant_variant (chars "[\"\\u00e9\"]")
      (chars "<script>const POSTS_DATA=[];//DATA_PLACEHOLDER</script>")
      (by decide) (by decide)).2 (by decide)⟩

/-- C10: when the exact placeholder occurs more than once (here: exactly
twice), `str.replace` substitutes every occurrence, not only the first; the
"exactly one occurrence" precondition is not checked. -/
theorem c10_replaces_all (json a b c : List Char)
    (h : countOcc PLACEHOLDER (a ++ (PLACEHOLDER ++ (b ++ (PLACEHOLDER ++ c)))) = 2) :
    assembleSite json (a ++ (PLACEHOLDER ++ (b ++ (PLACEHOLDER ++ c)))) =
      some (a ++ (replacementFor json ++ (b ++ (replacementFor json ++ c)))) := by
  have hne : PLACEHOLDER ≠ [] := by decide
  have hc : containsSub PLACEHOLDER
      (a ++ (PLACEHOLDER ++ (b ++ (PLACEHOLDER ++ c)))) = true :=
    containsSub_mid PLACEHOLDER a (b ++ (PLACEHOLDER ++ c)) hne
  simp only [assembleSite, hc, if_true]
  rw [listSubst_double PLACEHOLDER (replacementFor json) a b c hne h]

theorem c10_replaces_all_witness :
    assembleSite (chars "[]")
        (chars "A" ++ (PLACEHOLDER ++ (chars "B" ++ (PLACEHOLDER ++ chars "C")))) =
      some (chars "A" ++ (replacementFor (chars "[]") ++
        (chars "B" ++ (replacementFor (chars "[]") ++ chars "C")))) :=
  c10_replaces_all (chars "[]") (chars "A") (chars "B") (chars "C") (by decide)

/- ==================================================================
   Claim C6: the Tag Generator.
   ================================================================== -/

theorem isPre_map (f : Char → Char) {pat s : List Char} (h : isPre pat s = true) :
    isPre (pat.map f) (s.map f) = true := by
  induction pat generalizing s with
  | nil => simp [isPre]
  | cons p ps ih =>
    cases s with
    | nil => simp [isPre] at h
    | cons c cs =>
      simp only [isPre, Bool.and_eq_true, decide_eq_true_eq] at h
      simp only [List.map_cons, isPre, Bool.and_eq_true, decide_eq_true_eq]
      exact ⟨congrArg f h.1, ih h.2⟩

theorem containsSub_map (f : Char → Char) {pat s : List Char}
    (h : containsSub pat s = true) :
    containsSub (pat.map f) (s.map f) = true := by
  induction s with
  | nil =>
    simp only [containsSub] at h ⊢
    cases pat with
    | nil => simp [isPre]
    | cons p ps => simp [isPre] at h
  | cons c cs ih =>
    simp only [containsSub, Bool.or_eq_true] at h
    simp only [List.map_cons, containsSub, Bool.or_eq_true]
    rcases h with h | h
    · left
      have := isPre_map f h
      simpa using this
    · right
      exact ih h

/-- C6: a taxonomy label is produced iff one of its keywords occurs as a
substring of the lowercased title-plus-body blob; a body containing "PYTHON"
yields the "Coding" tag; a blob matching no configured keyword yields no
tags; and the result has no duplicates. -/
theorem c6_tag_rules (title content : List Char) :
    (∀ tag, tag ∈ generateTags title content ↔
      ∃ ks, (tag, ks) ∈ keywords ∧ ∃ k ∈ ks,
        containsSub k (pyLower (title ++ [' '] ++ content)) = true) ∧
    (generateTags title content).Nodup ∧
    (containsSub (chars "PYTHON") content = true →
      chars "Coding" ∈ generateTags title content) ∧
    ((∀ pr ∈ keywords, ∀ k ∈ pr.2,
        containsSub k (pyLower (title ++ [' '] ++ content)) = false) →
      generateTags title content = []) := by
  have hiff : ∀ tag, tag ∈ generateTags title content ↔
      ∃ ks, (tag, ks) ∈ keywords ∧ ∃ k ∈ ks,
        containsSub k (pyLower (title ++ [' '] ++ content)) = true := by
    intro tag
    simp only [generateTags, List.mem_map, List.mem_filter, List.any_eq_true]
    constructor
    · rintro ⟨⟨tg, ks⟩, ⟨hmem, hf⟩, rfl⟩
      exact ⟨ks, hmem, hf⟩
    · rintro ⟨ks, hmem, hk⟩
      exact ⟨(tag, ks), ⟨hmem, hk⟩, rfl⟩
  refine ⟨hiff, ?_, ?_, ?_⟩
  · have hbase : (keywords.map Prod.fst).Nodup := by decide
    exact hbase.sublist ((List.filter_sublist _).map Prod.fst)
  · intro hpy
    refine (hiff (chars "Coding")).mpr
      ⟨[chars "code", chars "implementation", chars "python", chars "jupyter",
        chars "colab"], by decide, chars "python", by decide, ?_⟩
    have h1 : containsSub (pyLower (chars "PYTHON")) (pyLower content) = true :=
      containsSub_map Char.toLower hpy
    have h2 : pyLower (chars "PYTHON") = chars "python" := by decide
    rw [h2] at h1
    have h3 : pyLower (title ++ [' '] ++ content) =
        pyLower (title ++ [' ']) ++ pyLower content := by
      simp [pyLower]
    rw [h3]
    exact containsSub_append_right h1 _
  · intro hnone
    simp only [generateTags, List.map_eq_nil_iff, List.filter_eq_nil_iff]
    intro pr hpr
    simp only [List.any_eq_true, not_exists]
    intro k hk
    have hfalse := hnone pr hpr k hk.1
    rw [hfalse] at hk
    exact Bool.false_ne_true hk.2

theorem c6_tag_rules_witness :
    chars "Coding" ∈ generateTags (chars "Demo") (chars "my PYTHON notebook") ∧
    generateTags (chars "zz") (chars "qq") = [] :=
  ⟨(c6_tag_rules (chars "Demo") (chars "my PYTHON notebook")).2.2.1 (by decide),
   (c6_tag_rules (chars "zz") (chars "qq")).2.2.2 (by decide)⟩

/- ==================================================================
   Claim C7: the Post Collector list phase.
   ================================================================== -/

/-- C7: when the collaborator returns two successful non-empty batches and
errors on the third fetch, the list phase ends early and the accumulated
list is exactly the concatenation of the first two batches. -/
theorem c7_partial_batches {E S : Type} (fetch : Nat → Except E (List S))
    (b1 b2 : List S) (e : E) (fuel : Nat)
    (h0 : fetch 0 = .ok b1)
    (h1 : fetch b1.length = .ok b2)
    (h2 : fetch (b1.length + b2.length) = .error e)
    (hb1 : b1 ≠ []) (hb2 : b2 ≠ []) :
    listPhase fetch (fuel + 3) 0 [] = b1 ++ b2 := by
  obtain ⟨x, xs, rfl⟩ := List.exists_cons_of_ne_nil hb1
  obtain ⟨y, ys, rfl⟩ := List.exists_cons_of_ne_nil hb2
  simp only [listPhase, h0]
  rw [show (0 : Nat) + (x :: xs).length = (x :: xs).length from Nat.zero_add _]
  simp only [listPhase, h1]
  simp only [listPhase, h2]
  simp

theorem c7_partial_batches_witness :
    listPhase fetchScenario (2 + 3) 0 [] = [10] ++ [20, 30] :=
  c7_partial_batches fetchScenario [10] [20, 30] "boom" 2
    rfl rfl rfl (by decide) (by decide)

/- ==================================================================
   Claim C8: resource extraction rules.
   ================================================================== -/

/-- C8: a resource is extracted from an element only when its required URL
attribute is present; a link element yields kind `link` with the href URL and
the trimmed nested text as name (defaulting to "External Link"); file and
secure-file elements yield kind `file` with the url attribute and the
filename attribute as name (defaulting to "File"); an image element yields
kind `image` with the src attribute and the alt attribute as name (defaulting
to "Image"); and a candidate whose name equals the (trimmed) URL is stored
with the literal name "Link". -/
theorem c8_extraction_rules :
    (∀ (e : XTree) (k u n : List Char), elemCandidate e = some (k, u, n) →
      (e.tag = chars "link" ∧ lookupA (chars "href") e.attrs = some u) ∨
      ((e.tag = chars "file" ∨ e.tag = chars "secure-file") ∧
        lookupA (chars "url") e.attrs = some u) ∨
      (e.tag = chars "image" ∧ lookupA (chars "src") e.attrs = some u)) ∧
    (∀ (e : XTree) (u : List Char), e.tag = chars "link" →
      lookupA (chars "href") e.attrs = some u → u ≠ [] →
      elemCandidate e = some (chars "link", u,
        if trimWS (itertext e) = [] then chars "External Link"
        else trimWS (itertext e))) ∧
    (∀ (e : XTree) (u : List Char),
      (e.tag = chars "file" ∨ e.tag = chars "secure-file") →
      lookupA (chars "url") e.attrs = some u → u ≠ [] →
      elemCandidate e = some (chars "file", u,
        (lookupA (chars "filename") e.attrs).getD (chars "File"))) ∧
    (∀ (e : XTree) (u : List Char), e.tag = chars "image" →
      lookupA (chars "src") e.attrs = some u → u ≠ [] →
      elemCandidate e = some (chars "image", u,
        (lookupA (chars "alt") e.attrs).getD (chars "Image"))) ∧
    (∀ (k u n : List Char) (st : PState), trimWS u ∉ st.seen →
      (addResource k u n st).res = st.res ++
        [⟨k, trimWS u, if n = trimWS u then chars "Link" else n⟩]) := by
  refine ⟨?_, ?_, ?_, ?_, ?_⟩
  · intro e k u n h
    simp only [elemCandidate] at h
    split at h
    · rename_i h1
      split at h
      · rename_i url hl
        split at h
        · rename_i hu
          simp only [Option.some_inj, Prod.mk.injEq] at h
          rw [h.2.1] at hl
          exact Or.inl ⟨h1, hl⟩
        · simp at h
      · simp at h
    · rename_i h1
      split at h
      · rename_i h2
        split at h
        · rename_i url hl
          split at h
          · rename_i hu
            simp only [Option.some_inj, Prod.mk.injEq] at h
            rw [h.2.1] at hl
            exact Or.inr (Or.inl ⟨h2, hl⟩)
          · simp at h
        · simp at h
      · rename_i h2
        split at h
        · rename_i h3
          split at h
          · rename_i url hl
            split at h
            · rename_i hu
              simp only [Option.some_inj, Prod.mk.injEq] at h
              rw [h.2.1] at hl
              exact Or.inr (Or.inr ⟨h3, hl⟩)
            · simp at h
          · simp at h
        · simp at h
  · intro e u h1 h2 h3
    simp [elemCandidate, h1, h2, h3]
  · intro e u h1 h2 h3
    rcases h1 with h1 | h1 <;>
      simp [elemCandidate, h1, h2, h3, show chars "file" ≠ chars "link" from by decide,
        show chars "secure-file" ≠ chars "link" from by decide]
  · intro e u h1 h2 h3
    simp [elemCandidate, h1, h2, h3,
      show chars "image" ≠ chars "link" from by decide,
      show chars "image" ≠ chars "file" from by decide,
      show chars "image" ≠ chars "secure-file" from by decide]
  · intro k u n st h
    obtain ⟨parts, seen, res⟩ := st
    simp only [addResource]
    rw [if_neg h]

theorem c8_extraction_rules_witness :
    elemCandidate eLink = some (chars "link", chars "http://x",
      if trimWS (itertext eLink) = [] then chars "External Link"
      else trimWS (itertext eLink)) ∧
    (addResource (chars "link") (chars " http://x ") (chars "name") ⟨[], [], []⟩).res =
      [] ++ [⟨chars "link", trimWS (chars " http://x "),
        if chars "name" = trimWS (chars " http://x ") then chars "Link"
        else chars "name"⟩] :=
  ⟨c8_extraction_rules.2.1 eLink (chars "http://x") rfl rfl (by decide),
   c8_extraction_rules.2.2.2.2 (chars "link") (chars " http://x ") (chars "name")
     ⟨[], [], []⟩ (by decide)⟩

/- ==================================================================
   Claim C9: the embedded JSON serialization.
   ================================================================== -/

theorem digit_ne_nl (n : Nat) : digit n ≠ Char.ofNat 10 := by
  unfold digit
  split <;> decide

theorem hexDigit_ne_nl (n : Nat) : hexDigit n ≠ Char.ofNat 10 := by
  unfold hexDigit
  split <;> decide

theorem natCharsAux_no_nl (fuel n : Nat) : Char.ofNat 10 ∉ natCharsAux fuel n := by
  induction fuel generalizing n with
  | zero => simp [natCharsAux]
  | succ fuel ih =>
    simp only [natCharsAux]
    split
    · simp only [List.mem_singleton]
      exact fun h => digit_ne_nl n h.symm
    · intro h
      rcases List.mem_append.mp h with h1 | h1
      · exact ih _ h1
      · simp only [List.mem_singleton] at h1
        exact digit_ne_nl _ h1.symm

theorem intChars_no_nl (n : Int) : Char.ofNat 10 ∉ intChars n := by
  cases n with
  | ofNat m => exact natCharsAux_no_nl _ _
  | negSucc m =>
    simp only [intChars, List.mem_cons]
    rintro (h | h)
    · exact absurd h.symm (by decide)
    · exact natCharsAux_no_nl _ _ h

theorem escChar_no_nl (c : Char) : Char.ofNat 10 ∉ escChar c := by
  unfold escChar
  split_ifs <;> try decide
  · simp only [List.mem_cons]
    rintro (h | h | h)
    · exact absurd h.symm (by decide)
    · exact absurd h.symm (by decide)
    · simp only [hex4, List.mem_cons, List.not_mem_nil, or_false] at h
      rcases h with h | h | h | h <;> exact hexDigit_ne_nl _ h.symm
  · rename_i hq hb hn ht hr hbs hf hc
    simp only [List.mem_singleton]
    intro h
    apply hc
    rw [← h]
    decide

theorem escString_no_nl (k : List Char) : Char.ofNat 10 ∉ escString k := by
  simp only [escString, List.mem_cons, List.mem_append, List.mem_flatMap,
    List.mem_singleton]
  rintro (h | ⟨a, _, ha⟩ | h)
  · exact absurd h.symm (by decide)
  · exact escChar_no_nl a ha
  · exact absurd h (by decide)

mutual
theorem dumps_no_nl : (v : JVal) → Char.ofNat 10 ∉ dumps v
  | .null => by decide
  | .bool b => by cases b <;> decide
  | .num n => intChars_no_nl n
  | .str k => escString_no_nl k
  | .arr .nil => by decide
  | .arr (.cons v rest) => by
    have h1 := dumps_no_nl v
    have h2 := dumpsArrRest_no_nl rest
    simp only [dumps, List.mem_cons, List.mem_append, List.mem_singleton]
    rintro (h | (h | h) | h)
    · exact absurd h.symm (by decide)
    · exact h1 h
    · exact h2 h
    · exact absurd h (by decide)
  | .obj .nil => by decide
  | .obj (.cons k v rest) => by
    have h1 := dumps_no_nl v
    have h2 := dumpsObjRest_no_nl rest
    have h3 := escString_no_nl k
    simp only [dumps, List.mem_cons, List.mem_append, List.mem_singleton]
    rintro (h | (((h | h) | h) | h) | h)
    · exact absurd h.symm (by decide)
    · exact h3 h
    · exact absurd h (by decide)
    · exact h1 h
    · exact h2 h
    · exact absurd h (by decide)
theorem dumpsArrRest_no_nl : (xs : JArr) → Char.ofNat 10 ∉ dumpsArrRest xs
  | .nil => by decide
  | .cons v rest => by
    have h1 := dumps_no_nl v
    have h2 := dumpsArrRest_no_nl rest
    simp only [dumpsArrRest, List.mem_append]
    rintro ((h | h) | h)
    · exact absurd h (by decide)
    · exact h1 h
    · exact h2 h
theorem dumpsObjRest_no_nl : (kvs : JObj) → Char.ofNat 10 ∉ dumpsObjRest kvs
  | .nil => by decide
  | .cons k v rest => by
    have h1 := dumps_no_nl v
    have h2 := dumpsObjRest_no_nl rest
    have h3 := escString_no_nl k
    simp only [dumpsObjRest, List.mem_append]
    rintro ((((h | h) | h) | h) | h)
    · exact absurd h (by decide)
    · exact h3 h
    · exact absurd h (by decide)
    · exact h1 h
    · exact h2 h
end

/-- C9 (counterexample): the serialization of `[ {"id": 1} ]` contains a space
character even though no string in the value contains one — the output is
`[ {"id": 1} ]` with Python's default ", "/": " separators, not the
whitespace-free `[ {"id":1} ]` form, so it is not free of extraneous
whitespace. -/
theorem c9_counterexample :
    dumps (.arr (.cons (.obj (.cons (chars "id") (.num 1) .nil)) .nil)) =
      chars "[\x7b\"id\": 1\x7d]" ∧
    ' ' ∈ dumps (.arr (.cons (.obj (.cons (chars "id") (.num 1) .nil)) .nil)) ∧
    ' ' ∉ chars "id" :=
  ⟨by decide, by decide, by decide⟩

/-- C9 (amended): the embedded JSON is a single-line serialization — it never
contains a newline character (so no pretty-printed indentation), and it
leaves printable non-ASCII characters unescaped — but Python's default
separators place one space after each comma and colon, so it is not entirely
whitespace-free. -/
theorem c9_single_line :
    (∀ v : JVal, Char.ofNat 10 ∉ dumps v) ∧
    ∀ c : Char, 32 ≤ c.toNat → c ≠ '"' → c ≠ '\\' →
      dumps (.str [c]) = ['"', c, '"'] := by
  refine ⟨dumps_no_nl, ?_⟩
  intro c h32 hq hb
  have hn : c ≠ Char.ofNat 10 := fun h => by rw [h] at h32; exact absurd h32 (by decide)
  have ht : c ≠ Char.ofNat 9 := fun h => by rw [h] at h32; exact absurd h32 (by decide)
  have hr : c ≠ Char.ofNat 13 := fun h => by rw [h] at h32; exact absurd h32 (by decide)
  have hbk : c ≠ Char.ofNat 8 := fun h => by rw [h] at h32; exact absurd h32 (by decide)
  have hf : c ≠ Char.ofNat 12 := fun h => by rw [h] at h32; exact absurd h32 (by decide)
  have hlt : ¬ c.toNat < 32 := by omega
  simp only [dumps, escString, List.flatMap_cons, List.flatMap_nil, List.append_nil]
  rw [show escChar c = [c] from by
    unfold escChar
    rw [if_neg hq, if_neg hb, if_neg ?hn, if_neg ?ht, if_neg ?hr, if_neg ?hbk,
      if_neg ?hf, if_neg hlt]
    case hn => exact hn
    case ht => exact ht
    case hr => exact hr
    case hbk => exact hbk
    case hf => exact hf]
  rfl

theorem c9_single_line_witness :
    Char.ofNat 10 ∉ dumps (.str (chars "a\nb")) ∧
    dumps (.str [Char.ofNat 233]) = ['"', Char.ofNat 233, '"'] :=
  ⟨c9_single_line.1 (.str (chars "a\nb")),
   c9_single_line.2 (Char.ofNat 233) (by decide) (by decide) (by decide)⟩

end EdSite
